import Mathlib

/-
Verification of the PassPilot password engine (src/passpilot.py).

This file gives a shallow embedding in Lean 4 of the core logic of
`AdvancedPasswordGenerator` and `AdvancedPasswordAnalyzer`:

* passwords are `List Char`;
* the cryptographically secure random source (`secrets.choice`) is modelled
  by an arbitrary stream `r : Nat → Nat` of draw indices, one slot per draw,
  with `pick` selecting the indexed element of the candidate alphabet;
* `secrets.SystemRandom().shuffle` is modelled by an arbitrary function
  `shuffle : List Char → List Char`; theorems that need it assume it permutes
  its argument (which a uniform shuffle always does);
* Python floats are modelled as real numbers, and `round(x, 2)` as exact
  round-half-to-even on reals;
* the network and SHA-1 are oracles: `net` maps a request URL to an HTTP
  outcome, `sha1hex` maps a byte string to its hex digest.

Theorems are stated over these definitions; each claim-level theorem is
accompanied (where it has hypotheses) by a closed witness instantiating it.
-/

namespace PassPilot

/-! ## Generator (`AdvancedPasswordGenerator.generate`) -/

/-- Alphabet `string.ascii_lowercase`. -/
def lowerChars : List Char := "abcdefghijklmnopqrstuvwxyz".toList

/-- Alphabet `string.ascii_uppercase`. -/
def upperChars : List Char := "ABCDEFGHIJKLMNOPQRSTUVWXYZ".toList

/-- Alphabet `string.digits`. -/
def digitChars : List Char := "0123456789".toList

/-- The symbol alphabet literal of `generate` (braces written as hex escapes). -/
def symbolChars : List Char := "!@#$%^&*()-_=+[]\x7b\x7d|;:,.<>?/".toList

/-- Python `s.replace(c, '')`: remove every occurrence of the character `c`. -/
def removeChar (l : List Char) (c : Char) : List Char := l.filter (fun a => a != c)

/-- The lowercase alphabet after optional ambiguous-character exclusion
(`lower.replace('l','').replace('o','')`). -/
def classLower (ex : Bool) : List Char :=
  if ex then removeChar (removeChar lowerChars 'l') 'o' else lowerChars

/-- The uppercase alphabet after optional ambiguous-character exclusion. -/
def classUpper (ex : Bool) : List Char :=
  if ex then removeChar (removeChar upperChars 'I') 'O' else upperChars

/-- The digit alphabet after optional ambiguous-character exclusion. -/
def classDigits (ex : Bool) : List Char :=
  if ex then removeChar (removeChar digitChars '0') '1' else digitChars

/-- The symbol alphabet after optional ambiguous-character exclusion
(`symbols.replace('|','').replace('l','')`; the second replace is vacuous). -/
def classSymbols (ex : Bool) : List Char :=
  if ex then removeChar (removeChar symbolChars '|') 'l' else symbolChars

/-- Model of `secrets.choice(l)`: the element of `l` selected by draw index `k`.
The index stream ranges over all of `Nat`, so every element is reachable. -/
def pick (k : Nat) (l : List Char) : Char := l.getD (k % l.length) ' '

/-- The union pool `char_pool` built from the selected classes, in source order. -/
def charPool (ul uu ud us ex : Bool) : List Char :=
  (if ul then classLower ex else []) ++ (if uu then classUpper ex else []) ++
  (if ud then classDigits ex else []) ++ (if us then classSymbols ex else [])

/-- The guaranteed draws appended to `password_chars`: one secure draw from each
selected class alphabet, in source order.  Draw slots 0..3 of the stream are
reserved for these four potential draws. -/
def seedChars (ul uu ud us ex : Bool) (r : Nat → Nat) : List Char :=
  (if ul then [pick (r 0) (classLower ex)] else []) ++
  (if uu then [pick (r 1) (classUpper ex)] else []) ++
  (if ud then [pick (r 2) (classDigits ex)] else []) ++
  (if us then [pick (r 3) (classSymbols ex)] else [])

/-- Number of selected character classes. -/
def numSelected (ul uu ud us : Bool) : Nat :=
  (if ul then 1 else 0) + (if uu then 1 else 0) +
  (if ud then 1 else 0) + (if us then 1 else 0)

/-- Value component of `AdvancedPasswordGenerator.generate`: if no class is
selected (`char_pool` empty) the method returns the empty string; otherwise it
draws one character per selected class, then `length - len(password_chars)`
further characters from the union pool (none when that difference is not
positive), and applies the secure shuffle.  Draw slots `4+i` feed the `i`-th
remaining draw. -/
def generate (len : Nat) (ul uu ud us ex : Bool) (r : Nat → Nat)
    (shuffle : List Char → List Char) : List Char :=
  if charPool ul uu ud us ex = [] then []
  else
    shuffle (seedChars ul uu ud us ex r ++
      (List.range (len - (seedChars ul uu ud us ex r).length)).map
        (fun i => pick (r (4 + i)) (charPool ul uu ud us ex)))

/-- One entry of the generator-owned session history. -/
structure HistEntry where
  password : List Char
  time : List Char
deriving DecidableEq

/-- The mutable state owned by `AdvancedPasswordGenerator`
(`self.history`, `self.max_history`). -/
structure GenState where
  history : List HistEntry
  max_history : Nat
deriving DecidableEq

/-- The state built by `AdvancedPasswordGenerator.__init__`. -/
def initState : GenState := { history := [], max_history := 50 }

/-- `AdvancedPasswordGenerator.add_to_history`: insert the new entry at the
front, then drop the last entry if the capacity is exceeded.  The timestamp
`now` models `datetime.now().strftime(...)`. -/
def add_to_history (st : GenState) (password now : List Char) : GenState :=
  let h := { password := password, time := now } :: st.history
  { history := if h.length > st.max_history then h.dropLast else h,
    max_history := st.max_history }

/-- Full model of the `generate` method including its effect on `self`:
it returns the password and the updated generator state.  The source calls
`self.add_to_history(password)` just before returning, except on the
empty-pool early return. -/
def generateStep (st : GenState) (len : Nat) (ul uu ud us ex : Bool)
    (r : Nat → Nat) (shuffle : List Char → List Char) (now : List Char) :
    List Char × GenState :=
  if charPool ul uu ud us ex = [] then ([], st)
  else (generate len ul uu ud us ex r shuffle,
        add_to_history st (generate len ul uu ud us ex r shuffle) now)

/-- The all-zero draw stream, used to instantiate witnesses. -/
def zeroStream : Nat → Nat := fun _ => 0

/-! ### Generator lemmas -/

theorem pick_mem {l : List Char} (k : Nat) (h : l ≠ []) : pick k l ∈ l := by
  have hlt : k % l.length < l.length :=
    Nat.mod_lt _ (List.length_pos.mpr h)
  unfold pick
  rw [List.getD_eq_getElem l _ hlt]
  exact List.getElem_mem hlt

theorem removeChar_subset {l : List Char} {c a : Char} (h : a ∈ removeChar l c) :
    a ∈ l := List.mem_of_mem_filter h

theorem classLower_ne_nil (ex : Bool) : classLower ex ≠ [] := by
  cases ex <;> decide

theorem classUpper_ne_nil (ex : Bool) : classUpper ex ≠ [] := by
  cases ex <;> decide

theorem classDigits_ne_nil (ex : Bool) : classDigits ex ≠ [] := by
  cases ex <;> decide

theorem classSymbols_ne_nil (ex : Bool) : classSymbols ex ≠ [] := by
  cases ex <;> decide

theorem classLower_subset {ex : Bool} {a : Char} (h : a ∈ classLower ex) :
    a ∈ lowerChars := by
  cases ex
  · simpa [classLower] using h
  · exact removeChar_subset (removeChar_subset (by simpa [classLower] using h))

theorem classUpper_subset {ex : Bool} {a : Char} (h : a ∈ classUpper ex) :
    a ∈ upperChars := by
  cases ex
  · simpa [classUpper] using h
  · exact removeChar_subset (removeChar_subset (by simpa [classUpper] using h))

theorem classDigits_subset {ex : Bool} {a : Char} (h : a ∈ classDigits ex) :
    a ∈ digitChars := by
  cases ex
  · simpa [classDigits] using h
  · exact removeChar_subset (removeChar_subset (by simpa [classDigits] using h))

theorem classSymbols_subset {ex : Bool} {a : Char} (h : a ∈ classSymbols ex) :
    a ∈ symbolChars := by
  cases ex
  · simpa [classSymbols] using h
  · exact removeChar_subset (removeChar_subset (by simpa [classSymbols] using h))

theorem charPool_ne_nil {ul uu ud us ex : Bool}
    (hsel : ul = true ∨ uu = true ∨ ud = true ∨ us = true) :
    charPool ul uu ud us ex ≠ [] := by
  intro hnil
  rcases hsel with h | h | h | h <;> subst h <;>
    simp only [charPool, if_true, List.append_eq_nil] at hnil
  · exact classLower_ne_nil ex hnil.1.1.1
  · exact classUpper_ne_nil ex hnil.1.1.2
  · exact classDigits_ne_nil ex hnil.1.2
  · exact classSymbols_ne_nil ex hnil.2

theorem seedChars_length (ul uu ud us ex : Bool) (r : Nat → Nat) :
    (seedChars ul uu ud us ex r).length = numSelected ul uu ud us := by
  cases ul <;> cases uu <;> cases ud <;> cases us <;>
    simp [seedChars, numSelected]

/-! ## Claim C1 -/

/-- C1: for every configuration with a non-empty set of selected character
classes and `length ≥ |selected classes|`, and for every draw stream and every
permuting shuffle, `generate` returns a password of exactly `length` characters
containing at least one character from every selected class. -/
theorem C1_generate_length_and_coverage
    (len : Nat) (ul uu ud us ex : Bool) (r : Nat → Nat)
    (shuffle : List Char → List Char)
    (hsel : ul = true ∨ uu = true ∨ ud = true ∨ us = true)
    (hlen : numSelected ul uu ud us ≤ len)
    (hshuf : ∀ l, List.Perm (shuffle l) l) :
    (generate len ul uu ud us ex r shuffle).length = len ∧
    (ul = true → ∃ c ∈ generate len ul uu ud us ex r shuffle, c ∈ lowerChars) ∧
    (uu = true → ∃ c ∈ generate len ul uu ud us ex r shuffle, c ∈ upperChars) ∧
    (ud = true → ∃ c ∈ generate len ul uu ud us ex r shuffle, c ∈ digitChars) ∧
    (us = true → ∃ c ∈ generate len ul uu ud us ex r shuffle, c ∈ symbolChars) := by
  have hpool := @charPool_ne_nil ul uu ud us ex hsel
  have hgen : generate len ul uu ud us ex r shuffle =
      shuffle (seedChars ul uu ud us ex r ++
        (List.range (len - (seedChars ul uu ud us ex r).length)).map
          (fun i => pick (r (4 + i)) (charPool ul uu ud us ex))) := by
    simp [generate, hpool]
  set body := seedChars ul uu ud us ex r ++
    (List.range (len - (seedChars ul uu ud us ex r).length)).map
      (fun i => pick (r (4 + i)) (charPool ul uu ud us ex)) with hbody
  have hperm : List.Perm (generate len ul uu ud us ex r shuffle) body := by
    rw [hgen]; exact hshuf body
  have hseedlen : (seedChars ul uu ud us ex r).length = numSelected ul uu ud us :=
    seedChars_length ul uu ud us ex r
  have hseed_mem : ∀ {c : Char}, c ∈ seedChars ul uu ud us ex r →
      c ∈ generate len ul uu ud us ex r shuffle := by
    intro c hc
    exact hperm.mem_iff.mpr (by exact List.mem_append_left _ hc)
  refine ⟨?_, ?_, ?_, ?_, ?_⟩
  · have : body.length = len := by
      rw [hbody, List.length_append, List.length_map, List.length_range,
        hseedlen]
      omega
    rw [hperm.length_eq, this]
  · intro hul
    refine ⟨pick (r 0) (classLower ex), hseed_mem ?_,
      classLower_subset (pick_mem _ (classLower_ne_nil ex))⟩
    subst hul
    simp [seedChars]
  · intro huu
    refine ⟨pick (r 1) (classUpper ex), hseed_mem ?_,
      classUpper_subset (pick_mem _ (classUpper_ne_nil ex))⟩
    subst huu
    simp [seedChars]
  · intro hud
    refine ⟨pick (r 2) (classDigits ex), hseed_mem ?_,
      classDigits_subset (pick_mem _ (classDigits_ne_nil ex))⟩
    subst hud
    simp [seedChars]
  · intro hus
    refine ⟨pick (r 3) (classSymbols ex), hseed_mem ?_,
      classSymbols_subset (pick_mem _ (classSymbols_ne_nil ex))⟩
    subst hus
    simp [seedChars]

/-- Witness for C1 at a concrete configuration: length 4, all four classes. -/
theorem C1_witness :
    (generate 4 true true true true false zeroStream id).length = 4 ∧
    (∃ c ∈ generate 4 true true true true false zeroStream id, c ∈ lowerChars) ∧
    (∃ c ∈ generate 4 true true true true false zeroStream id, c ∈ upperChars) ∧
    (∃ c ∈ generate 4 true true true true false zeroStream id, c ∈ digitChars) ∧
    (∃ c ∈ generate 4 true true true true false zeroStream id, c ∈ symbolChars) := by
  have h := C1_generate_length_and_coverage 4 true true true true false
    zeroStream id (Or.inl rfl) (by decide) (fun l => List.Perm.refl l)
  exact ⟨h.1, h.2.1 rfl, h.2.2.1 rfl, h.2.2.2.1 rfl, h.2.2.2.2 rfl⟩

/-! ## Claim C2 -/

/-- C2 counterexample: the code never signals `InvalidConfig`.  With no class
selected, `generate` returns the empty string as an ordinary value; with
`length = 2` and all four classes selected (`length < |selected classes| = 4`)
it returns an ordinary 4-character password — longer than requested — rather
than failing. -/
theorem C2_counterexample :
    generate 16 false false false false false zeroStream id = [] ∧
    generate 2 true true true true false zeroStream id = ['a', 'A', '0', '!'] ∧
    (generate 2 true true true true false zeroStream id).length = 4 := by
  refine ⟨by decide, by decide, by decide⟩

/-- C2 amended: `generate` signals no error.  When no class is selected it
returns the empty string; when `length < |selected classes|` it does not
truncate but returns a password of exactly `|selected classes|` characters
(one guaranteed draw per selected class), exceeding the requested length. -/
theorem C2_amended_no_error_behavior :
    (∀ (len : Nat) (ex : Bool) (r : Nat → Nat) (shuffle : List Char → List Char),
      generate len false false false false ex r shuffle = []) ∧
    (∀ (len : Nat) (ul uu ud us ex : Bool) (r : Nat → Nat)
        (shuffle : List Char → List Char),
      (ul = true ∨ uu = true ∨ ud = true ∨ us = true) →
      (∀ l, List.Perm (shuffle l) l) →
      len < numSelected ul uu ud us →
      (generate len ul uu ud us ex r shuffle).length = numSelected ul uu ud us) := by
  constructor
  · intro len ex r shuffle
    simp [generate, charPool]
  · intro len ul uu ud us ex r shuffle hsel hshuf hlt
    have hpool := @charPool_ne_nil ul uu ud us ex hsel
    have hseedlen := seedChars_length ul uu ud us ex r
    have hzero : len - (seedChars ul uu ud us ex r).length = 0 := by omega
    have hgen : generate len ul uu ud us ex r shuffle =
        shuffle (seedChars ul uu ud us ex r) := by
      simp [generate, hpool, hzero]
    rw [hgen, (hshuf _).length_eq, hseedlen]

/-- Witness for C2 amended, at the configurations of the counterexample. -/
theorem C2_amended_witness :
    generate 16 false false false false false zeroStream id = [] ∧
    (generate 2 true true true true false zeroStream id).length =
      numSelected true true true true := by
  refine ⟨C2_amended_no_error_behavior.1 16 false zeroStream id,
    C2_amended_no_error_behavior.2 2 true true true true false zeroStream id
      (Or.inl rfl) (fun l => List.Perm.refl l) (by decide)⟩

/-! ## Claim C10 -/

/-- C10 counterexample: `generate` does modify generator-owned state.  Starting
from the freshly initialised generator (empty history), one call with the
all-zero draw stream leaves the returned password recorded in `self.history`,
so the history is no longer empty. -/
theorem C10_counterexample :
    (generateStep initState 4 true false false false false zeroStream id
        "12:00:00".toList).2.history =
      [{ password := ['a', 'a', 'a', 'a'], time := "12:00:00".toList }] ∧
    (generateStep initState 4 true false false false false zeroStream id
        "12:00:00".toList).2.history ≠ initState.history := by
  refine ⟨by decide, by decide⟩

/-- C10 amended: history recording is performed by `generate` itself, not the
caller.  Whenever at least one class is selected, the call returns the
password together with a state produced by `add_to_history`: the newest
history entry is the returned password with the current timestamp, and the
history grows by one entry unless the capacity bound forces eviction of the
oldest.  Only the no-class early return leaves the state untouched. -/
theorem C10_amended_generate_records_history :
    (∀ (st : GenState) (len : Nat) (ul uu ud us ex : Bool) (r : Nat → Nat)
        (shuffle : List Char → List Char) (now : List Char),
      charPool ul uu ud us ex ≠ [] →
      0 < st.max_history →
      generateStep st len ul uu ud us ex r shuffle now =
        (generate len ul uu ud us ex r shuffle,
         add_to_history st (generate len ul uu ud us ex r shuffle) now) ∧
      (generateStep st len ul uu ud us ex r shuffle now).2.history.head? =
        some { password := generate len ul uu ud us ex r shuffle, time := now } ∧
      (generateStep st len ul uu ud us ex r shuffle now).2.history.length =
        (if st.history.length + 1 > st.max_history then st.history.length
         else st.history.length + 1)) ∧
    (∀ (st : GenState) (len : Nat) (ex : Bool) (r : Nat → Nat)
        (shuffle : List Char → List Char) (now : List Char),
      generateStep st len false false false false ex r shuffle now = ([], st)) := by
  constructor
  · intro st len ul uu ud us ex r shuffle now hpool hmax
    have hstep : generateStep st len ul uu ud us ex r shuffle now =
        (generate len ul uu ud us ex r shuffle,
         add_to_history st (generate len ul uu ud us ex r shuffle) now) := by
      simp [generateStep, hpool]
    refine ⟨hstep, ?_, ?_⟩
    · rw [hstep]
      simp only [add_to_history]
      split
      · next hgt =>
        have hne : st.history ≠ [] := by
          intro hnil
          rw [hnil] at hgt
          simp at hgt
          omega
        obtain ⟨e, tl, hcons⟩ := List.exists_cons_of_ne_nil hne
        rw [hcons]
        simp [List.dropLast]
      · rfl
    · rw [hstep]
      simp only [add_to_history, List.length_cons]
      split
      · next hgt => simp [List.length_dropLast]
      · simp
  · intro st len ex r shuffle now
    simp [generateStep, charPool]

/-- Witness for C10 amended: a concrete call starting from the initial state. -/
theorem C10_amended_witness :
    (generateStep initState 4 true false false false false zeroStream id
        "12:00:00".toList).2.history.head? =
      some { password := generate 4 true false false false false zeroStream id,
             time := "12:00:00".toList } ∧
    (generateStep initState 4 true false false false false zeroStream id
        "12:00:00".toList).2.history.length = 1 := by
  have h := (C10_amended_generate_records_history.1 initState 4
    true false false false false zeroStream id "12:00:00".toList
    (by decide) (by decide))
  exact ⟨h.2.1, by rw [h.2.2]; decide⟩

/-! ## Python rounding

`round(x, 2)` in Python rounds half to even.  Floats are modelled as reals. -/

/-- Python `round(x)`: round half to even (banker's rounding). -/
noncomputable def pyRound (x : ℝ) : ℤ :=
  if Int.fract x = 1 / 2 then (if Even ⌊x⌋ then ⌊x⌋ else ⌊x⌋ + 1) else round x

/-- Python `round(x, 2)`. -/
noncomputable def round2 (x : ℝ) : ℝ := (pyRound (100 * x) : ℝ) / 100

theorem pyRound_intCast (n : ℤ) : pyRound (n : ℝ) = n := by
  unfold pyRound
  rw [Int.fract_intCast]
  norm_num

theorem pyRound_eq_of_lt_half {x : ℝ} {k : ℤ} (h1 : (k : ℝ) ≤ x)
    (h2 : x < k + 1 / 2) : pyRound x = k := by
  have hfl : ⌊x⌋ = k := by
    rw [Int.floor_eq_iff]
    constructor
    · exact h1
    · linarith
  have hfr : Int.fract x ≠ 1 / 2 := by
    rw [Int.fract, hfl]
    intro hc
    have : x = k + 1 / 2 := by linarith [sub_eq_iff_eq_add.mp hc]
    linarith
  unfold pyRound
  rw [if_neg hfr, round_eq, Int.floor_eq_iff]
  constructor
  · linarith
  · linarith

theorem floor_le_pyRound (x : ℝ) : ⌊x⌋ ≤ pyRound x := by
  unfold pyRound
  split
  · split
    · exact le_refl _
    · omega
  · rw [round_eq]
    exact Int.floor_mono (by linarith)

theorem pyRound_le_floor_add_one (x : ℝ) : pyRound x ≤ ⌊x⌋ + 1 := by
  unfold pyRound
  split
  · split
    · omega
    · exact le_refl _
  · rw [round_eq]
    have : ⌊x + 1 / 2⌋ ≤ ⌊x + 1⌋ := Int.floor_mono (by linarith)
    rw [show x + (1:ℝ) = x + (1:ℤ) by norm_num, Int.floor_add_int] at this
    exact this

theorem pyRound_le (x : ℝ) : (pyRound x : ℝ) ≤ x + 1 / 2 := by
  unfold pyRound
  split
  · next hfr =>
    have hx : x = ⌊x⌋ + 1 / 2 := by
      have := Int.fract_add_floor x
      rw [hfr] at this
      linarith
    split
    · linarith
    · push_cast
      linarith
  · rw [round_eq]
    have := Int.floor_le (x + 1 / 2)
    linarith

theorem le_pyRound (x : ℝ) : x - 1 / 2 ≤ (pyRound x : ℝ) := by
  unfold pyRound
  split
  · next hfr =>
    have hx : x = ⌊x⌋ + 1 / 2 := by
      have := Int.fract_add_floor x
      rw [hfr] at this
      linarith
    split
    · linarith
    · push_cast
      linarith
  · rw [round_eq]
    have := Int.lt_floor_add_one (x + 1 / 2)
    have h2 : (⌊x + 1 / 2⌋ : ℝ) ≥ x - 1 / 2 := by linarith
    linarith

theorem pyRound_mono {x y : ℝ} (h : x ≤ y) : pyRound x ≤ pyRound y := by
  rcases lt_or_le ⌊x⌋ ⌊y⌋ with hfl | hfl
  · calc pyRound x ≤ ⌊x⌋ + 1 := pyRound_le_floor_add_one x
      _ ≤ ⌊y⌋ := by omega
      _ ≤ pyRound y := floor_le_pyRound y
  · have hfe : ⌊x⌋ = ⌊y⌋ := le_antisymm (Int.floor_mono h) hfl
    have hfr : Int.fract x ≤ Int.fract y := by
      rw [Int.fract, Int.fract, hfe]
      linarith
    unfold pyRound
    by_cases hx2 : Int.fract x = 1 / 2 <;> by_cases hy2 : Int.fract y = 1 / 2
    · rw [if_pos hx2, if_pos hy2, hfe]
    · -- fract x = 1/2 < fract y : round y lands at ⌊y⌋ + 1 or higher
      rw [if_pos hx2, if_neg hy2, round_eq]
      have hylt : 1 / 2 < Int.fract y := lt_of_le_of_ne (hx2 ▸ hfr) (Ne.symm hy2)
      have hy' : (⌊y⌋ : ℝ) + 1 ≤ y + 1 / 2 := by
        have := Int.fract_add_floor y
        linarith
      have : ⌊x⌋ + 1 ≤ ⌊y + 1 / 2⌋ := by
        rw [hfe]
        exact Int.le_floor.mpr (by push_cast; linarith)
      split <;> omega
    · -- fract x < 1/2 : round x = ⌊x⌋
      rw [if_neg hx2, if_pos hy2, round_eq]
      have hxlt : Int.fract x < 1 / 2 :=
        lt_of_le_of_ne (hy2 ▸ hfr) hx2
      have hfx := Int.fract_add_floor x
      have : ⌊x + 1 / 2⌋ = ⌊x⌋ := by
        rw [Int.floor_eq_iff]
        constructor
        · have := Int.floor_le x
          linarith
        · have := Int.fract_nonneg x
          linarith
      rw [this, hfe]
      split <;> omega
    · rw [if_neg hx2, if_neg hy2, round_eq, round_eq]
      exact Int.floor_mono (by linarith)

theorem round2_mono {x y : ℝ} (h : x ≤ y) : round2 x ≤ round2 y := by
  unfold round2
  have := pyRound_mono (mul_le_mul_of_nonneg_left h (by norm_num : (0:ℝ) ≤ 100))
  have hc : ((pyRound (100 * x) : ℝ)) ≤ ((pyRound (100 * y) : ℝ)) := by
    exact_mod_cast this
  linarith

theorem round2_intCast (n : ℤ) : round2 (n : ℝ) = n := by
  unfold round2
  rw [show (100 : ℝ) * n = ((100 * n : ℤ) : ℝ) by push_cast; ring,
    pyRound_intCast]
  push_cast
  ring

theorem round2_eq_of {x : ℝ} {k : ℤ} (h1 : (k : ℝ) ≤ 100 * x)
    (h2 : 100 * x < k + 1 / 2) : round2 x = (k : ℝ) / 100 := by
  unfold round2
  rw [pyRound_eq_of_lt_half h1 h2]

theorem round2_ge (x : ℝ) : x - 1 / 200 ≤ round2 x := by
  unfold round2
  have := le_pyRound (100 * x)
  linarith

/-! ## Entropy analyzer (`AdvancedPasswordAnalyzer`) -/

/-- `re.search(r'[a-z]', password)` succeeds. -/
def hasLowerB (p : List Char) : Bool := p.any Char.isLower

/-- `re.search(r'[A-Z]', password)` succeeds. -/
def hasUpperB (p : List Char) : Bool := p.any Char.isUpper

/-- `re.search(r'\d', password)` succeeds. -/
def hasDigitB (p : List Char) : Bool := p.any Char.isDigit

/-- `re.search(r'[^a-zA-Z\d]', password)` succeeds: some character is neither
a letter nor a digit. -/
def hasOtherB (p : List Char) : Bool := p.any (fun c => !(c.isAlpha || c.isDigit))

/-- The `pool_size` accumulated by `calculate_entropy`: the constants
26 / 26 / 10 / 32 summed over the classes present in the password. -/
def pool_size (p : List Char) : Nat :=
  (if hasLowerB p then 26 else 0) + (if hasUpperB p then 26 else 0) +
  (if hasDigitB p then 10 else 0) + (if hasOtherB p then 32 else 0)

/-- `AdvancedPasswordAnalyzer.calculate_entropy` (the pool-based estimate):
0 for an empty password, 0 if no class predicate matched, otherwise
`round(len(password) * log2(pool_size), 2)`. -/
noncomputable def calculate_entropy (p : List Char) : ℝ :=
  if p = [] then 0
  else if pool_size p = 0 then 0
  else round2 ((p.length : ℝ) * Real.logb 2 (pool_size p))

/-- `AdvancedPasswordAnalyzer.calculate_character_entropy` (empirical Shannon
entropy): 0 for an empty password, otherwise
`round((-Σ_c (count c / len) * log2 (count c / len)) * len, 2)`, the sum
running over the distinct characters (the keys of `Counter(password)`). -/
noncomputable def calculate_character_entropy (p : List Char) : ℝ :=
  if p = [] then 0
  else round2
    ((-(∑ c ∈ p.toFinset,
        ((p.count c : ℝ) / p.length) * Real.logb 2 ((p.count c : ℝ) / p.length))) *
      (p.length : ℝ))

/-! ### Bounds on `logb 2` through integer powers -/

theorem logb_two_lt {x : ℝ} (hx : 0 < x) (a n : ℕ) (hn : 0 < n)
    (h : x ^ n < 2 ^ a) : Real.logb 2 x < (a : ℝ) / n := by
  have hlog2 : (0:ℝ) < Real.log 2 := Real.log_pos one_lt_two
  have hn' : (0:ℝ) < n := by exact_mod_cast hn
  rw [Real.logb, div_lt_div_iff₀ hlog2 hn']
  have hx' : (0:ℝ) < x ^ n := pow_pos hx n
  have h2a : (0:ℝ) < 2 ^ a := by positivity
  calc Real.log x * n = Real.log (x ^ n) := by rw [Real.log_pow]; ring
    _ < Real.log (2 ^ a) := (Real.log_lt_log_iff hx' h2a).mpr h
    _ = a * Real.log 2 := by rw [Real.log_pow]

theorem lt_logb_two {x : ℝ} (hx : 0 < x) (a n : ℕ) (hn : 0 < n)
    (h : (2:ℝ) ^ a < x ^ n) : (a : ℝ) / n < Real.logb 2 x := by
  have hlog2 : (0:ℝ) < Real.log 2 := Real.log_pos one_lt_two
  have hn' : (0:ℝ) < n := by exact_mod_cast hn
  rw [Real.logb, div_lt_div_iff₀ hn' hlog2]
  have hx' : (0:ℝ) < x ^ n := pow_pos hx n
  have h2a : (0:ℝ) < 2 ^ a := by positivity
  calc (a : ℝ) * Real.log 2 = Real.log (2 ^ a) := by rw [Real.log_pow]
    _ < Real.log (x ^ n) := (Real.log_lt_log_iff h2a hx').mpr h
    _ = Real.log x * n := by rw [Real.log_pow]; ring

/-! ## Claim C5 -/

/-- C5: `calculate_entropy` returns 0 for an empty password, 0 when no class
predicate matches, and otherwise `length * log2(pool_size)` rounded to two
decimals; in particular on `"aaaaaaaa"` it returns exactly 37.60
(= `round(8 * log2 26, 2)`). -/
theorem C5_pool_entropy :
    calculate_entropy [] = 0 ∧
    (∀ p : List Char, pool_size p = 0 → calculate_entropy p = 0) ∧
    (∀ p : List Char, p ≠ [] → pool_size p ≠ 0 →
      calculate_entropy p = round2 ((p.length : ℝ) * Real.logb 2 (pool_size p))) ∧
    calculate_entropy "aaaaaaaa".toList = 37.6 := by
  refine ⟨by simp [calculate_entropy], ?_, ?_, ?_⟩
  · intro p hp
    simp [calculate_entropy, hp]
  · intro p hne hp
    simp [calculate_entropy, hne, hp]
  · have hps : pool_size "aaaaaaaa".toList = 26 := by decide
    have hlen : ("aaaaaaaa".toList.length : ℝ) = 8 := by norm_num
    have hval : calculate_entropy "aaaaaaaa".toList =
        round2 (8 * Real.logb 2 26) := by
      rw [calculate_entropy, if_neg (by decide), if_neg (by rw [hps]; norm_num),
        hps, hlen]
      norm_num
    rw [hval]
    -- 4.700375 < log2 26 < 4.7005, hence 3760.3 < 100 * (8 * log2 26) < 3760.4
    have hlo : (37603 : ℝ) / 8000 < Real.logb 2 26 := by
      refine lt_logb_two (by norm_num) 37603 8000 (by norm_num) ?_
      have hnat : (2:ℕ) ^ 37603 < 26 ^ 8000 := by norm_num
      exact_mod_cast hnat
    have hhi : Real.logb 2 26 < (9401 : ℝ) / 2000 := by
      refine logb_two_lt (by norm_num) 9401 2000 (by norm_num) ?_
      have hnat : (26:ℕ) ^ 2000 < 2 ^ 9401 := by norm_num
      exact_mod_cast hnat
    have h1 : ((3760 : ℤ) : ℝ) ≤ 100 * (8 * Real.logb 2 26) := by
      push_cast
      nlinarith
    have h2 : 100 * (8 * Real.logb 2 26) < (3760 : ℤ) + 1 / 2 := by
      push_cast
      nlinarith
    rw [round2_eq_of h1 h2]
    norm_num

/-- Witness for C5's conditional clauses at concrete inputs. -/
theorem C5_witness :
    pool_size [] = 0 ∧ calculate_entropy [] = 0 ∧
    calculate_entropy ['a'] = round2 ((1 : ℝ) * Real.logb 2 26) := by
  refine ⟨by decide, C5_pool_entropy.2.1 [] (by decide), ?_⟩
  have h := C5_pool_entropy.2.2.1 ['a'] (by decide) (by decide)
  have hps : pool_size ['a'] = 26 := by decide
  rw [h, hps]
  norm_num

/-! ## Strength feedback (`get_strength_feedback`) -/

/-- `AdvancedPasswordAnalyzer.get_strength_feedback`: the (label, colour,
ordinal) triple selected by the entropy threshold chain. -/
noncomputable def get_strength_feedback (entropy : ℝ) : String × String × Nat :=
  if entropy < 28 then ("Critical", "#c0392b", 0)
  else if entropy < 36 then ("Very Weak", "#e74c3c", 1)
  else if entropy < 50 then ("Weak", "#e67e22", 2)
  else if entropy < 65 then ("Fair", "#f39c12", 3)
  else if entropy < 80 then ("Good", "#f1c40f", 4)
  else if entropy < 100 then ("Strong", "#2ecc71", 5)
  else if entropy < 120 then ("Very Strong", "#27ae60", 6)
  else ("Exceptional", "#16a085", 7)

/-- The ordinal component of the strength feedback. -/
noncomputable def levelOf (entropy : ℝ) : Nat := (get_strength_feedback entropy).2.2

theorem levelOf_eq (e : ℝ) :
    levelOf e =
      if e < 28 then 0 else if e < 36 then 1 else if e < 50 then 2
      else if e < 65 then 3 else if e < 80 then 4 else if e < 100 then 5
      else if e < 120 then 6 else 7 := by
  unfold levelOf get_strength_feedback
  split_ifs <;> rfl

/-! ## Claim C7 -/

set_option maxHeartbeats 2000000 in
/-- C7: the strength level is the fixed threshold table with half-open-below
boundaries (<28 → 0, <36 → 1, <50 → 2, <65 → 3, <80 → 4, <100 → 5,
<120 → 6, else 7), it is monotone in the entropy, and in particular
entropy 27.99 maps to level 0 while entropy 28.00 maps to level 1. -/
theorem C7_strength_level_table :
    (∀ e : ℝ,
      (e < 28 → levelOf e = 0) ∧
      (28 ≤ e → e < 36 → levelOf e = 1) ∧
      (36 ≤ e → e < 50 → levelOf e = 2) ∧
      (50 ≤ e → e < 65 → levelOf e = 3) ∧
      (65 ≤ e → e < 80 → levelOf e = 4) ∧
      (80 ≤ e → e < 100 → levelOf e = 5) ∧
      (100 ≤ e → e < 120 → levelOf e = 6) ∧
      (120 ≤ e → levelOf e = 7)) ∧
    Monotone levelOf ∧
    levelOf 27.99 = 0 ∧ levelOf 28 = 1 := by
  refine ⟨?_, ?_, ?_, ?_⟩
  · intro e
    refine ⟨?_, ?_, ?_, ?_, ?_, ?_, ?_, ?_⟩ <;>
      (intros
       rw [levelOf_eq]
       split_ifs <;> first | rfl | linarith)
  · intro a b hab
    rw [levelOf_eq, levelOf_eq]
    split_ifs <;> first | omega | linarith
  · rw [levelOf_eq]
    split_ifs <;> first | rfl | linarith
  · rw [levelOf_eq]
    split_ifs <;> first | rfl | linarith

/-- Witness for C7's banded clauses at a concrete entropy. -/
theorem C7_witness : levelOf 40 = 2 :=
  ((C7_strength_level_table.1 40).2.2.1) (by norm_num) (by norm_num)

/-! ## Crack-time estimate (`get_crack_time`) -/

/-- The unit chosen by `get_crack_time` for its output string. -/
inductive TimeUnit where
  | seconds
  | minutes
  | hours
  | days
  | years
  | thousandYears
  | millionsPlus
deriving DecidableEq

/-- `combinations / guesses_per_sec`: `2 ** entropy / 100_000_000_000`. -/
noncomputable def crackSeconds (entropy : ℝ) : ℝ :=
  (2 : ℝ) ^ entropy / 100000000000

/-- `AdvancedPasswordAnalyzer.get_crack_time`, abstracted from the f-string:
the unit of the returned string together with the numeric value displayed
with it (for the open-ended `millions of years+` sentinel, whose string
carries no number, the raw seconds are kept in the second component). -/
noncomputable def get_crack_time (entropy : ℝ) : TimeUnit × ℝ :=
  if crackSeconds entropy < 60 then (TimeUnit.seconds, crackSeconds entropy)
  else if crackSeconds entropy < 3600 then
    (TimeUnit.minutes, crackSeconds entropy / 60)
  else if crackSeconds entropy < 86400 then
    (TimeUnit.hours, crackSeconds entropy / 3600)
  else if crackSeconds entropy < 31536000 then
    (TimeUnit.days, crackSeconds entropy / 86400)
  else if crackSeconds entropy < 31536000 * 100 then
    (TimeUnit.years, crackSeconds entropy / 31536000)
  else if crackSeconds entropy < 31536000 * 1000000 then
    (TimeUnit.thousandYears, crackSeconds entropy / (31536000 * 1000))
  else (TimeUnit.millionsPlus, crackSeconds entropy)

/-! ## Claim C8 -/

/-- C8 counterexample: at entropy 69 the computed duration is about 187
years, so `years` is the coarsest unit keeping the displayed value ≥ 1
(the value in years is ≥ 1), yet the code formats it in thousands of years
with a displayed value below 1. -/
theorem C8_counterexample :
    (get_crack_time 69).1 = TimeUnit.thousandYears ∧
    (get_crack_time 69).2 < 1 ∧
    1 ≤ crackSeconds 69 / 31536000 := by
  have hcs : crackSeconds 69 = 590295810358705651712 / 100000000000 := by
    unfold crackSeconds
    rw [show ((69 : ℝ)) = ((69 : ℕ) : ℝ) by norm_num, Real.rpow_natCast]
    norm_num
  have hg : get_crack_time 69 =
      (TimeUnit.thousandYears,
       (590295810358705651712 / 100000000000 : ℝ) / (31536000 * 1000)) := by
    unfold get_crack_time
    rw [hcs]
    split_ifs with h1 h2 h3 h4 h5 h6
    · norm_num at h1
    · norm_num at h2
    · norm_num at h3
    · norm_num at h4
    · norm_num at h5
    · rfl
    · norm_num at h6
  rw [hg, hcs]
  norm_num

/-- C8 amended: `crackTime` computes `seconds = 2^entropy / 10^11` and selects
units at the fixed cutoffs 60 s, 3600 s, 86400 s, 365-day years, 100 years and
10^6 years; the displayed value is ≥ 1 in the minutes-through-years bands, but
the thousands-of-years band already starts at 100 years, so there the
displayed value can drop to 0.1; from 10^6 years on the open-ended
`millions of years+` sentinel is used. -/
theorem C8_amended_crack_time_bands (e : ℝ) :
    crackSeconds e = (2 : ℝ) ^ e / 100000000000 ∧
    (crackSeconds e < 60 → get_crack_time e = (TimeUnit.seconds, crackSeconds e)) ∧
    (60 ≤ crackSeconds e → crackSeconds e < 3600 →
      get_crack_time e = (TimeUnit.minutes, crackSeconds e / 60) ∧
      1 ≤ crackSeconds e / 60) ∧
    (3600 ≤ crackSeconds e → crackSeconds e < 86400 →
      get_crack_time e = (TimeUnit.hours, crackSeconds e / 3600) ∧
      1 ≤ crackSeconds e / 3600) ∧
    (86400 ≤ crackSeconds e → crackSeconds e < 31536000 →
      get_crack_time e = (TimeUnit.days, crackSeconds e / 86400) ∧
      1 ≤ crackSeconds e / 86400) ∧
    (31536000 ≤ crackSeconds e → crackSeconds e < 31536000 * 100 →
      get_crack_time e = (TimeUnit.years, crackSeconds e / 31536000) ∧
      1 ≤ crackSeconds e / 31536000) ∧
    (31536000 * 100 ≤ crackSeconds e → crackSeconds e < 31536000 * 1000000 →
      get_crack_time e = (TimeUnit.thousandYears, crackSeconds e / (31536000 * 1000)) ∧
      1 / 10 ≤ crackSeconds e / (31536000 * 1000)) ∧
    (31536000 * 1000000 ≤ crackSeconds e →
      get_crack_time e = (TimeUnit.millionsPlus, crackSeconds e)) := by
  refine ⟨rfl, ?_, ?_, ?_, ?_, ?_, ?_, ?_⟩
  · intro h1
    unfold get_crack_time
    split_ifs <;> rfl
  · intro h1 h2
    refine ⟨?_, ?_⟩
    · unfold get_crack_time
      split_ifs <;> first | rfl | (exfalso; linarith)
    · rw [le_div_iff₀ (by norm_num)]
      linarith
  · intro h1 h2
    refine ⟨?_, ?_⟩
    · unfold get_crack_time
      split_ifs <;> first | rfl | (exfalso; linarith)
    · rw [le_div_iff₀ (by norm_num)]
      linarith
  · intro h1 h2
    refine ⟨?_, ?_⟩
    · unfold get_crack_time
      split_ifs <;> first | rfl | (exfalso; linarith)
    · rw [le_div_iff₀ (by norm_num)]
      linarith
  · intro h1 h2
    refine ⟨?_, ?_⟩
    · unfold get_crack_time
      split_ifs <;> first | rfl | (exfalso; linarith)
    · rw [le_div_iff₀ (by norm_num)]
      linarith
  · intro h1 h2
    refine ⟨?_, ?_⟩
    · unfold get_crack_time
      split_ifs <;> first | rfl | (exfalso; linarith)
    · rw [div_le_div_iff₀ (by norm_num) (by norm_num)]
      linarith
  · intro h1
    unfold get_crack_time
    split_ifs <;> first | rfl | (exfalso; linarith)

/-- Witness for C8 amended: entropy 0 gives 10^-11 seconds, hence the
seconds band. -/
theorem C8_amended_witness :
    get_crack_time 0 = (TimeUnit.seconds, crackSeconds 0) := by
  refine (C8_amended_crack_time_bands 0).2.1 ?_
  have h0 : crackSeconds 0 = 1 / 100000000000 := by
    unfold crackSeconds
    rw [Real.rpow_zero]
  rw [h0]
  norm_num

/-! ## Breach checker (`AdvancedPasswordAnalyzer.check_if_pwned`) -/

/-- Outcome of `requests.get(url, timeout=5)` combined with
`raise_for_status()`: a 2xx body, a non-2xx status raised by
`raise_for_status` (an `HTTPError`, subclass of `RequestException`), or a
transport failure raised by `requests.get` itself (also a
`RequestException`). -/
inductive HttpOutcome where
  | ok (body : List Char)
  | httpError (msg : List Char)
  | transportError (msg : List Char)

/-- Python `str.upper()` on the ASCII hex digest. -/
def pyUpper (l : List Char) : List Char :=
  l.map (fun c => if 'a' ≤ c ∧ c ≤ 'z' then Char.ofNat (c.toNat - 32) else c)

/-- The range-query URL `f"https://api.pwnedpasswords.com/range/{prefix}"`:
only the first five characters of the uppercase digest are interpolated. -/
def requestUrl (sha1hex : List Char → List Char) (password : List Char) :
    List Char :=
  "https://api.pwnedpasswords.com/range/".toList ++
    (pyUpper (sha1hex password)).take 5

/-- The locally retained 35-character suffix `sha1[5:]`, never sent. -/
def localSuffix (sha1hex : List Char → List Char) (password : List Char) :
    List Char :=
  (pyUpper (sha1hex password)).drop 5

/-- Python `str.split(sep)` for a one-character separator. -/
def splitOnChar (sep : Char) : List Char → List (List Char)
  | [] => [[]]
  | c :: rest =>
    let r := splitOnChar sep rest
    if c = sep then [] :: r
    else (c :: r.headD []) :: r.tail

/-- Python `str.splitlines()` restricted to `\n` terminators: the body is
split at newlines, and a trailing newline produces no final empty line. -/
def pySplitlines (s : List Char) : List (List Char) :=
  if s = [] then []
  else
    let parts := splitOnChar (Char.ofNat 10) s
    if parts.getLast? = some [] then parts.dropLast else parts

/-- Python `int(s)` on the canonical decimal records of the range endpoint:
a non-empty all-digit string parses to its value; anything else raises
`ValueError`, modelled as `none`. -/
def parseCount (s : List Char) : Option Nat :=
  if s ≠ [] ∧ s.all Char.isDigit then
    some (s.foldl (fun acc c => 10 * acc + (c.toNat - 48)) 0)
  else none

/-- The record scan of `check_if_pwned`: Python lazily maps
`line.split(':')` over `response.text.splitlines()` and unpacks each item
into `h, count`.  A line that does not split into exactly two fields raises
`ValueError`, caught by the generic handler; a line whose first field equals
the retained suffix returns `int(count)` (a parse failure again lands in the
generic handler); exhausting all records returns 0.  The generic handler
produces an `Error: ...` message (its tail abstracts the Python exception
text). -/
def scanRecords (suffix : List Char) :
    List (List Char) → Option Nat × Option (List Char)
  | [] => (some 0, none)
  | line :: rest =>
    match splitOnChar ':' line with
    | [h, c] =>
      if h = suffix then
        match parseCount c with
        | some n => (some n, none)
        | none => (none, some "Error: invalid count".toList)
      else scanRecords suffix rest
    | _ => (none, some "Error: unpack failed".toList)

/-- `AdvancedPasswordAnalyzer.check_if_pwned`, returning the `(count, error)`
pair of the source.  An empty password short-circuits to
`(None, "Password is empty.")` before any hashing or network activity.
Otherwise one GET is issued for the 5-character prefix URL; transport and
HTTP-status failures both surface through the `RequestException` handler as
`API error: ...`; a 2xx body is scanned linearly for the retained suffix. -/
def check_if_pwned (password : List Char) (sha1hex : List Char → List Char)
    (net : List Char → HttpOutcome) : Option Nat × Option (List Char) :=
  if password = [] then (none, some "Password is empty.".toList)
  else
    match net (requestUrl sha1hex password) with
    | HttpOutcome.ok body =>
        scanRecords (localSuffix sha1hex password) (pySplitlines body)
    | HttpOutcome.httpError e => (none, some ("API error: ".toList ++ e))
    | HttpOutcome.transportError e => (none, some ("API error: ".toList ++ e))

/-! ### Split and scan lemmas -/

theorem splitOnChar_of_not_mem {sep : Char} {l : List Char} (h : sep ∉ l) :
    splitOnChar sep l = [l] := by
  induction l with
  | nil => rfl
  | cons c rest ih =>
    have hc : c ≠ sep := fun hc => h (hc ▸ List.mem_cons_self c rest)
    have hrest : sep ∉ rest := fun hm => h (List.mem_cons_of_mem c hm)
    simp only [splitOnChar, if_neg hc, ih hrest]
    rfl

theorem splitOnChar_append {sep : Char} {a : List Char} (b : List Char)
    (h : sep ∉ a) :
    splitOnChar sep (a ++ sep :: b) = a :: splitOnChar sep b := by
  induction a with
  | nil => simp [splitOnChar]
  | cons c rest ih =>
    have hc : c ≠ sep := fun hc => h (hc ▸ List.mem_cons_self c rest)
    have hrest : sep ∉ rest := fun hm => h (List.mem_cons_of_mem c hm)
    simp [splitOnChar, hc, ih hrest]

theorem scanRecords_skip {suffix line : List Char} {rest : List (List Char)}
    (h : ∃ h1 t, splitOnChar ':' line = [h1, t] ∧ h1 ≠ suffix) :
    scanRecords suffix (line :: rest) = scanRecords suffix rest := by
  obtain ⟨h1, t, hsplit, hne⟩ := h
  simp only [scanRecords, hsplit, if_neg hne]

theorem scanRecords_skip_prefix {suffix : List Char} {pre : List (List Char)}
    (rest : List (List Char))
    (h : ∀ l ∈ pre, ∃ h1 t, splitOnChar ':' l = [h1, t] ∧ h1 ≠ suffix) :
    scanRecords suffix (pre ++ rest) = scanRecords suffix rest := by
  induction pre with
  | nil => rfl
  | cons l pre ih =>
    rw [List.cons_append,
      scanRecords_skip (h l (List.mem_cons_self l pre)),
      ih (fun l' hl' => h l' (List.mem_cons_of_mem l hl'))]

theorem scanRecords_no_match {suffix : List Char} {lines : List (List Char)}
    (h : ∀ l ∈ lines, ∃ h1 t, splitOnChar ':' l = [h1, t] ∧ h1 ≠ suffix) :
    scanRecords suffix lines = (some 0, none) := by
  induction lines with
  | nil => rfl
  | cons l rest ih =>
    rw [scanRecords_skip (h l (List.mem_cons_self l rest)),
      ih (fun l' hl' => h l' (List.mem_cons_of_mem l hl'))]

theorem scanRecords_match {suffix c : List Char} {rest : List (List Char)}
    {n : Nat} (hs : ':' ∉ suffix) (hc : ':' ∉ c)
    (hn : parseCount c = some n) :
    scanRecords suffix ((suffix ++ ':' :: c) :: rest) = (some n, none) := by
  have hsplit : splitOnChar ':' (suffix ++ ':' :: c) = [suffix, c] := by
    rw [splitOnChar_append _ hs, splitOnChar_of_not_mem hc]
  simp [scanRecords, hsplit, hn]

/-! ## Claim C3 -/

/-- C3: `check_if_pwned` on an empty password fails fast — for every network
oracle it returns the distinct `Password is empty.` failure, which is not an
`API error: ...` message; when the 2xx body contains a record whose
35-character suffix field equals the locally retained suffix (all earlier
records being well-formed non-matches), it returns that record's count; and
when the whole well-formed body contains no matching suffix it returns count
0 with no error. -/
theorem C3_check_if_pwned_results :
    (∀ (sha1hex : List Char → List Char) (net : List Char → HttpOutcome),
      check_if_pwned [] sha1hex net =
        (none, some "Password is empty.".toList)) ∧
    (∀ msg : List Char,
      "Password is empty.".toList ≠ "API error: ".toList ++ msg) ∧
    (∀ (p : List Char) (sha1hex : List Char → List Char)
        (net : List Char → HttpOutcome) (body c : List Char)
        (pre post : List (List Char)) (n : Nat),
      p ≠ [] →
      net (requestUrl sha1hex p) = HttpOutcome.ok body →
      pySplitlines body = pre ++ (localSuffix sha1hex p ++ ':' :: c) :: post →
      (∀ l ∈ pre, ∃ h1 t, splitOnChar ':' l = [h1, t] ∧
        h1 ≠ localSuffix sha1hex p) →
      ':' ∉ localSuffix sha1hex p → ':' ∉ c →
      parseCount c = some n →
      check_if_pwned p sha1hex net = (some n, none)) ∧
    (∀ (p : List Char) (sha1hex : List Char → List Char)
        (net : List Char → HttpOutcome) (body : List Char),
      p ≠ [] →
      net (requestUrl sha1hex p) = HttpOutcome.ok body →
      (∀ l ∈ pySplitlines body, ∃ h1 t, splitOnChar ':' l = [h1, t] ∧
        h1 ≠ localSuffix sha1hex p) →
      check_if_pwned p sha1hex net = (some 0, none)) := by
  refine ⟨?_, ?_, ?_, ?_⟩
  · intro sha1hex net
    rfl
  · intro msg h
    have h1 : ("Password is empty.".toList).head? = some 'P' := rfl
    rw [h] at h1
    have h2 : ("API error: ".toList ++ msg).head? = some 'A' := rfl
    exact absurd (h1.symm.trans h2) (by decide)
  · intro p sha1hex net body c pre post n hp hnet hbody hpre hs hc hn
    rw [check_if_pwned, if_neg hp, hnet]
    show scanRecords (localSuffix sha1hex p) (pySplitlines body) = (some n, none)
    rw [hbody, scanRecords_skip_prefix _ hpre, scanRecords_match hs hc hn]
  · intro p sha1hex net body hp hnet hlines
    rw [check_if_pwned, if_neg hp, hnet]
    show scanRecords (localSuffix sha1hex p) (pySplitlines body) = (some 0, none)
    exact scanRecords_no_match hlines

/-- A concrete digest oracle for the breach-checker witnesses. -/
def hexOracle : List Char → List Char :=
  fun _ => "0123456789abcdef0123456789abcdef01234567".toList

/-- A concrete 2xx body: one non-matching record, then the matching one. -/
def hitBody : List Char :=
  ("AAAA:1\n56789ABCDEF0123456789ABCDEF01234567:3303003").toList

/-- Witness for C3 at concrete inputs: a matching record yields its count. -/
theorem C3_witness :
    check_if_pwned ['p'] hexOracle (fun _ => HttpOutcome.ok hitBody) =
      (some 3303003, none) ∧
    check_if_pwned [] hexOracle (fun _ => HttpOutcome.ok hitBody) =
      (none, some "Password is empty.".toList) := by
  constructor
  · refine C3_check_if_pwned_results.2.2.1 ['p'] hexOracle
      (fun _ => HttpOutcome.ok hitBody) hitBody "3303003".toList
      ["AAAA:1".toList] [] 3303003 (by decide) rfl (by decide) ?_ (by decide)
      (by decide) (by decide)
    intro l hl
    have : l = "AAAA:1".toList := by
      simpa using hl
    subst this
    exact ⟨"AAAA".toList, "1".toList, by decide, by decide⟩
  · exact C3_check_if_pwned_results.1 hexOracle (fun _ => HttpOutcome.ok hitBody)

/-! ## Claim C4 -/

/-- C4: the network request is a function of only the first five characters
of the uppercase SHA-1 digest — the URL is the fixed range endpoint with
exactly `take 5` of the digest interpolated, two passwords whose digests
share that 5-character prefix produce identical requests, and the outcome of
`check_if_pwned` depends on the network only through its response at that
one URL (so nothing else — neither the password nor the full 40-character
digest — ever reaches the network). -/
theorem C4_request_depends_only_on_prefix :
    (∀ (sha1hex : List Char → List Char) (p : List Char),
      requestUrl sha1hex p =
        "https://api.pwnedpasswords.com/range/".toList ++
          (pyUpper (sha1hex p)).take 5) ∧
    (∀ (sha1hex : List Char → List Char) (p1 p2 : List Char),
      p1 ≠ [] → p2 ≠ [] →
      (pyUpper (sha1hex p1)).take 5 = (pyUpper (sha1hex p2)).take 5 →
      requestUrl sha1hex p1 = requestUrl sha1hex p2) ∧
    (∀ (sha1hex : List Char → List Char) (p : List Char)
        (net net' : List Char → HttpOutcome),
      p ≠ [] →
      net (requestUrl sha1hex p) = net' (requestUrl sha1hex p) →
      check_if_pwned p sha1hex net = check_if_pwned p sha1hex net') := by
  refine ⟨fun _ _ => rfl, ?_, ?_⟩
  · intro sha1hex p1 p2 _ _ h
    unfold requestUrl
    rw [h]
  · intro sha1hex p net net' hp hnet
    rw [check_if_pwned, check_if_pwned, if_neg hp, if_neg hp, hnet]

/-- Witness for C4: two distinct passwords under a concrete digest oracle,
and two network oracles that agree only at the prefix URL. -/
theorem C4_witness :
    requestUrl hexOracle ['a'] = requestUrl hexOracle ['b'] ∧
    check_if_pwned ['a'] hexOracle (fun _ => HttpOutcome.ok hitBody) =
      check_if_pwned ['a'] hexOracle
        (fun u => if u = requestUrl hexOracle ['a'] then HttpOutcome.ok hitBody
          else HttpOutcome.transportError "connection refused".toList) := by
  constructor
  · exact C4_request_depends_only_on_prefix.2.1 hexOracle ['a'] ['b']
      (by decide) (by decide) rfl
  · refine C4_request_depends_only_on_prefix.2.2 hexOracle ['a'] _ _
      (by decide) ?_
    simp

/-! ## Pattern detector (`AdvancedPasswordAnalyzer.detect_patterns`) -/

/-- Python ASCII lower-casing; evaluating a matcher on the lower-cased
subject models the effect of `re.IGNORECASE` on the ASCII fragment. -/
def pyLower (l : List Char) : List Char :=
  l.map (fun c => if 'A' ≤ c ∧ c ≤ 'Z' then Char.ofNat (c.toNat + 32) else c)

/-- `\w` on the ASCII fragment: letter, digit or underscore. -/
def isWordChar (c : Char) : Bool := c.isAlphanum || c == '_'

/-- Substring containment: some suffix of `l` starts with `pat` — the
semantics of an unanchored `re.search` for a literal pattern. -/
def containsSeq (pat : List Char) : List Char → Bool
  | [] => pat.isEmpty
  | c :: rest => pat.isPrefixOf (c :: rest) || containsSeq pat rest

/-- Does `l` contain `n` consecutive characters satisfying `p`?  This is
`re.search` for `[class]{n,}`: a run of length ≥ n contains a window of
exactly n. -/
def hasRun (p : Char → Bool) (n : Nat) : List Char → Bool
  | [] => false
  | c :: rest =>
    (decide (n ≤ (c :: rest).length) && ((c :: rest).take n).all p) ||
      hasRun p n rest

/-- Does `l` begin with three equal word characters? -/
def startsTriple (l : List Char) : Bool :=
  match l with
  | a :: b :: c :: _ => a == b && b == c && isWordChar a
  | _ => false

/-- Does `l` contain three consecutive equal word characters?  This is
`re.search(r'(\w)\1{2,}')`: a backreferenced run of length ≥ 3 contains one
of exactly length 3. -/
def hasTriple : List Char → Bool
  | [] => false
  | a :: rest => startsTriple (a :: rest) || hasTriple rest

/-- The nine regular expressions of `self.common_patterns`, in source
order: `123+`, `abc+`, `qwert+`, `password`, `admin`, the backreferenced
repeat, the digit run, and the two letter-run character classes. -/
inductive Rx where
  | r123
  | rabc
  | rqwert
  | rpassword
  | radmin
  | rrepeat
  | rdigits
  | rlower5
  | rupper5
deriving DecidableEq

/-- The source text of each pattern (regex braces written as hex escapes). -/
def rxStr : Rx → String
  | Rx.r123 => "123+"
  | Rx.rabc => "abc+"
  | Rx.rqwert => "qwert+"
  | Rx.rpassword => "password"
  | Rx.radmin => "admin"
  | Rx.rrepeat => "(\\w)\\1\x7b2,\x7d"
  | Rx.rdigits => "\\d\x7b4,\x7d"
  | Rx.rlower5 => "[a-z]\x7b5,\x7d"
  | Rx.rupper5 => "[A-Z]\x7b5,\x7d"

/-- `re.search(pattern, password, re.IGNORECASE)` for the nine patterns, on
the ASCII fragment.  `X+` matches somewhere iff the literal `X` occurs;
under `IGNORECASE` literal and backreference matching are case-insensitive
(modelled by lower-casing the subject), and `[a-z]{5,}` as well as
`[A-Z]{5,}` match any run of five letters regardless of their case. -/
def rxMatch (pat : Rx) (password : List Char) : Bool :=
  match pat with
  | Rx.r123 => containsSeq "123".toList (pyLower password)
  | Rx.rabc => containsSeq "abc".toList (pyLower password)
  | Rx.rqwert => containsSeq "qwert".toList (pyLower password)
  | Rx.rpassword => containsSeq "password".toList (pyLower password)
  | Rx.radmin => containsSeq "admin".toList (pyLower password)
  | Rx.rrepeat => hasTriple (pyLower password)
  | Rx.rdigits => hasRun Char.isDigit 4 password
  | Rx.rlower5 => hasRun Char.isAlpha 5 password
  | Rx.rupper5 => hasRun Char.isAlpha 5 password

/-- The pattern list `self.common_patterns` in source order. -/
def allRx : List Rx :=
  [Rx.r123, Rx.rabc, Rx.rqwert, Rx.rpassword, Rx.radmin,
   Rx.rrepeat, Rx.rdigits, Rx.rlower5, Rx.rupper5]

/-- `AdvancedPasswordAnalyzer.detect_patterns`: the source strings of the
patterns that match, in source order. -/
def detect_patterns (password : List Char) : List String :=
  (allRx.filter (fun pt => rxMatch pt password)).map rxStr

/-! ### Declarative readings of the matchers -/

/-- The password contains `s` as a substring, case-insensitively. -/
def ContainsCI (s : String) (p : List Char) : Prop :=
  ∃ i, i + s.toList.length ≤ (pyLower p).length ∧
    ((pyLower p).drop i).take s.toList.length = s.toList

/-- The password contains a repeated word-character run of length ≥ 3
(case-insensitively). -/
def HasRepeatedWordRun (p : List Char) : Prop :=
  ∃ i c, isWordChar c = true ∧ i + 3 ≤ (pyLower p).length ∧
    ((pyLower p).drop i).take 3 = [c, c, c]

/-- The password contains a run of at least four consecutive digits. -/
def HasDigitRun4 (p : List Char) : Prop :=
  ∃ i, i + 4 ≤ p.length ∧ ((p.drop i).take 4).all Char.isDigit = true

/-- The password contains a run of at least five consecutive letters, of
any mix of cases. -/
def HasLetterRun5 (p : List Char) : Prop :=
  ∃ i, i + 5 ≤ p.length ∧ ((p.drop i).take 5).all Char.isAlpha = true

theorem containsSeq_iff (pat l : List Char) :
    containsSeq pat l = true ↔
      ∃ i, i + pat.length ≤ l.length ∧ (l.drop i).take pat.length = pat := by
  induction l with
  | nil =>
    simp only [containsSeq, List.isEmpty_iff, List.length_nil]
    constructor
    · intro h
      exact ⟨0, by simp [h], by simp [h]⟩
    · rintro ⟨i, hle, heq⟩
      have hlen : pat.length = 0 := by omega
      exact List.length_eq_zero.mp hlen
  | cons c rest ih =>
    simp only [containsSeq, Bool.or_eq_true, ih]
    constructor
    · rintro (hp | ⟨i, hle, heq⟩)
      · have hpre : pat <+: (c :: rest) := List.isPrefixOf_iff_prefix.mp hp
        refine ⟨0, ?_, ?_⟩
        · simpa using hpre.length_le
        · simpa using (List.prefix_iff_eq_take.mp hpre).symm
      · refine ⟨i + 1, ?_, ?_⟩
        · simp only [List.length_cons]
          omega
        · simpa [List.drop_succ_cons] using heq
    · rintro ⟨i, hle, heq⟩
      cases i with
      | zero =>
        left
        refine List.isPrefixOf_iff_prefix.mpr (List.prefix_iff_eq_take.mpr ?_)
        simpa using heq.symm
      | succ i =>
        right
        refine ⟨i, ?_, ?_⟩
        · simp only [List.length_cons] at hle
          omega
        · simpa [List.drop_succ_cons] using heq

theorem hasRun_iff (p : Char → Bool) (n : Nat) (hn : 0 < n) (l : List Char) :
    hasRun p n l = true ↔
      ∃ i, i + n ≤ l.length ∧ ((l.drop i).take n).all p = true := by
  induction l with
  | nil =>
    simp only [hasRun, List.length_nil]
    constructor
    · intro h
      exact absurd h (by simp)
    · rintro ⟨i, hle, _⟩
      omega
  | cons c rest ih =>
    simp only [hasRun, Bool.or_eq_true, Bool.and_eq_true, decide_eq_true_eq, ih]
    constructor
    · rintro (⟨hle, hall⟩ | ⟨i, hle, hall⟩)
      · exact ⟨0, by simpa using hle, by simpa using hall⟩
      · refine ⟨i + 1, ?_, ?_⟩
        · simp only [List.length_cons]
          omega
        · simpa [List.drop_succ_cons] using hall
    · rintro ⟨i, hle, hall⟩
      cases i with
      | zero =>
        left
        exact ⟨by simpa using hle, by simpa using hall⟩
      | succ i =>
        right
        refine ⟨i, ?_, ?_⟩
        · simp only [List.length_cons] at hle
          omega
        · simpa [List.drop_succ_cons] using hall

theorem startsTriple_iff (l : List Char) :
    startsTriple l = true ↔
      ∃ c, isWordChar c = true ∧ 3 ≤ l.length ∧ l.take 3 = [c, c, c] := by
  match l with
  | [] => simp [startsTriple]
  | [a] => simp [startsTriple]
  | [a, b] => simp [startsTriple]
  | a :: b :: c :: rest =>
    simp only [startsTriple, Bool.and_eq_true, beq_iff_eq]
    constructor
    · rintro ⟨⟨hab, hbc⟩, hw⟩
      exact ⟨a, hw, by simp, by simp [hab, hbc]⟩
    · rintro ⟨d, hw, _, htake⟩
      simp only [List.take_succ_cons, List.take_zero] at htake
      obtain ⟨h1, h2, h3⟩ : a = d ∧ b = d ∧ c = d := by
        simpa using htake
      subst h1
      subst h2
      subst h3
      exact ⟨⟨rfl, rfl⟩, hw⟩

theorem hasTriple_iff (l : List Char) :
    hasTriple l = true ↔
      ∃ i c, isWordChar c = true ∧ i + 3 ≤ l.length ∧
        (l.drop i).take 3 = [c, c, c] := by
  induction l with
  | nil =>
    simp only [hasTriple]
    constructor
    · intro h
      exact absurd h (by simp)
    · rintro ⟨i, c, _, hle, _⟩
      simp only [List.length_nil] at hle
      omega
  | cons a rest ih =>
    simp only [hasTriple, Bool.or_eq_true, ih, startsTriple_iff]
    constructor
    · rintro (⟨c, hw, hle, htake⟩ | ⟨i, c, hw, hle, htake⟩)
      · exact ⟨0, c, hw, by simpa using hle, by simpa using htake⟩
      · refine ⟨i + 1, c, hw, ?_, ?_⟩
        · simp only [List.length_cons]
          omega
        · simpa [List.drop_succ_cons] using htake
    · rintro ⟨i, c, hw, hle, htake⟩
      cases i with
      | zero =>
        left
        exact ⟨c, hw, by simpa using hle, by simpa using htake⟩
      | succ i =>
        right
        refine ⟨i, c, hw, ?_, ?_⟩
        · simp only [List.length_cons] at hle
          omega
        · simpa [List.drop_succ_cons] using htake

/-! ## Claim C9 -/

/-- The weak structures exactly as the claim lists them: a repeated
character run of length ≥ 3 (any character), 4+ consecutive digits, 5+
same-case letters, the literal substrings `123` / `abc` / `qwert`, or the
words `password` / `admin`, case-insensitively. -/
def ClaimWeakStructure (p : List Char) : Prop :=
  (∃ i c, i + 3 ≤ p.length ∧ (p.drop i).take 3 = [c, c, c]) ∨
  HasDigitRun4 p ∨
  (∃ i, i + 5 ≤ p.length ∧ ((p.drop i).take 5).all Char.isLower = true) ∨
  (∃ i, i + 5 ≤ p.length ∧ ((p.drop i).take 5).all Char.isUpper = true) ∨
  ContainsCI "123" p ∨ ContainsCI "abc" p ∨ ContainsCI "qwert" p ∨
  ContainsCI "password" p ∨ ContainsCI "admin" p

/-- C9 counterexample: `"!!!"` is a repeated character run of length 3, one
of the claim's listed weak structures, yet `detect_patterns` returns the
empty list for it — the backreference pattern only matches word characters
(letters, digits, underscore), not punctuation. -/
theorem C9_counterexample :
    ClaimWeakStructure "!!!".toList ∧ detect_patterns "!!!".toList = [] := by
  constructor
  · exact Or.inl ⟨0, '!', by decide, by decide⟩
  · decide

/-- C9 amended: `detect_patterns` returns a non-empty list exactly when the
password contains one of: a case-insensitive occurrence of `123`, `abc`,
`qwert`, `password` or `admin`; a repeated run of three or more equal word
characters (letter, digit or underscore — not arbitrary characters),
case-insensitively; four or more consecutive digits; or five or more
consecutive letters of any mix of cases (`re.IGNORECASE` makes both
same-case matchers accept mixed case). -/
theorem C9_amended_detect_patterns_iff (p : List Char) :
    detect_patterns p ≠ [] ↔
      (ContainsCI "123" p ∨ ContainsCI "abc" p ∨ ContainsCI "qwert" p ∨
       ContainsCI "password" p ∨ ContainsCI "admin" p ∨
       HasRepeatedWordRun p ∨ HasDigitRun4 p ∨ HasLetterRun5 p) := by
  have hne : detect_patterns p ≠ [] ↔ ∃ pt ∈ allRx, rxMatch pt p = true := by
    simp [detect_patterns, List.filter_eq_nil_iff]
  rw [hne]
  constructor
  · rintro ⟨pt, _, hmatch⟩
    cases pt
    case r123 =>
      exact Or.inl ((containsSeq_iff _ _).mp hmatch)
    case rabc =>
      exact Or.inr (Or.inl ((containsSeq_iff _ _).mp hmatch))
    case rqwert =>
      exact Or.inr (Or.inr (Or.inl ((containsSeq_iff _ _).mp hmatch)))
    case rpassword =>
      exact Or.inr (Or.inr (Or.inr (Or.inl ((containsSeq_iff _ _).mp hmatch))))
    case radmin =>
      exact Or.inr (Or.inr (Or.inr (Or.inr (Or.inl
        ((containsSeq_iff _ _).mp hmatch)))))
    case rrepeat =>
      refine Or.inr (Or.inr (Or.inr (Or.inr (Or.inr (Or.inl ?_)))))
      obtain ⟨i, c, hw, hle, htake⟩ := (hasTriple_iff _).mp hmatch
      exact ⟨i, c, hw, hle, htake⟩
    case rdigits =>
      exact Or.inr (Or.inr (Or.inr (Or.inr (Or.inr (Or.inr (Or.inl
        ((hasRun_iff _ 4 (by norm_num) _).mp hmatch)))))))
    case rlower5 =>
      exact Or.inr (Or.inr (Or.inr (Or.inr (Or.inr (Or.inr (Or.inr
        ((hasRun_iff _ 5 (by norm_num) _).mp hmatch)))))))
    case rupper5 =>
      exact Or.inr (Or.inr (Or.inr (Or.inr (Or.inr (Or.inr (Or.inr
        ((hasRun_iff _ 5 (by norm_num) _).mp hmatch)))))))
  · rintro (h | h | h | h | h | h | h | h)
    · exact ⟨Rx.r123, by decide, (containsSeq_iff _ _).mpr h⟩
    · exact ⟨Rx.rabc, by decide, (containsSeq_iff _ _).mpr h⟩
    · exact ⟨Rx.rqwert, by decide, (containsSeq_iff _ _).mpr h⟩
    · exact ⟨Rx.rpassword, by decide, (containsSeq_iff _ _).mpr h⟩
    · exact ⟨Rx.radmin, by decide, (containsSeq_iff _ _).mpr h⟩
    · refine ⟨Rx.rrepeat, by decide, (hasTriple_iff _).mpr ?_⟩
      obtain ⟨i, c, hw, hle, htake⟩ := h
      exact ⟨i, c, hw, hle, htake⟩
    · exact ⟨Rx.rdigits, by decide, (hasRun_iff _ 4 (by norm_num) _).mpr h⟩
    · exact ⟨Rx.rlower5, by decide, (hasRun_iff _ 5 (by norm_num) _).mpr h⟩

/-! ## Claim C6: empirical Shannon entropy versus pool entropy -/

theorem list_sum_count (l : List Char) :
    ∑ c ∈ l.toFinset, l.count c = l.length := by
  simp

theorem pool_size_pos {p : List Char} (h : p ≠ []) : 0 < pool_size p := by
  rcases List.exists_mem_of_ne_nil p h with ⟨c, hc⟩
  have hone : hasLowerB p = true ∨ hasUpperB p = true ∨ hasDigitB p = true ∨
      hasOtherB p = true := by
    by_cases hl : c.isLower = true
    · exact Or.inl (List.any_eq_true.mpr ⟨c, hc, hl⟩)
    by_cases hu : c.isUpper = true
    · exact Or.inr (Or.inl (List.any_eq_true.mpr ⟨c, hc, hu⟩))
    by_cases hd : c.isDigit = true
    · exact Or.inr (Or.inr (Or.inl (List.any_eq_true.mpr ⟨c, hc, hd⟩)))
    · refine Or.inr (Or.inr (Or.inr (List.any_eq_true.mpr ⟨c, hc, ?_⟩)))
      simp [Char.isAlpha, hl, hu, hd]
  rcases hone with h1 | h1 | h1 | h1 <;>
    simp only [pool_size, h1, if_true] <;> split_ifs <;> omega

/-- Gibbs' inequality in `log` form: a finite probability vector with
positive weights has entropy at most `log` of the support size. -/
theorem neg_sum_mul_log_le (T : Finset Char) (w : Char → ℝ)
    (hw : ∀ c ∈ T, 0 < w c) (hsum : ∑ c ∈ T, w c = 1) :
    -∑ c ∈ T, w c * Real.log (w c) ≤ Real.log T.card := by
  have hTne : T.Nonempty := by
    rcases Finset.eq_empty_or_nonempty T with rfl | hne
    · simp at hsum
    · exact hne
  have hcard : (0 : ℝ) < (T.card : ℝ) := by
    exact_mod_cast Finset.card_pos.mpr hTne
  have key : ∀ c ∈ T,
      -(w c * Real.log (w c)) - w c * Real.log (T.card : ℝ) ≤
        1 / (T.card : ℝ) - w c := by
    intro c hc
    have hwc := hw c hc
    have hx : (0 : ℝ) < 1 / (w c * (T.card : ℝ)) := by positivity
    have hlog := Real.log_le_sub_one_of_pos hx
    have hexp : Real.log (1 / (w c * (T.card : ℝ))) =
        -Real.log (w c) - Real.log (T.card : ℝ) := by
      rw [one_div, Real.log_inv, Real.log_mul (ne_of_gt hwc) (ne_of_gt hcard)]
      ring
    have hmul := mul_le_mul_of_nonneg_left hlog hwc.le
    rw [hexp] at hmul
    have hval : w c * (1 / (w c * (T.card : ℝ)) - 1) = 1 / (T.card : ℝ) - w c := by
      field_simp
      ring
    nlinarith [hmul, hval]
  have hsum2 := Finset.sum_le_sum key
  have hL : ∑ c ∈ T, (-(w c * Real.log (w c)) - w c * Real.log (T.card : ℝ)) =
      -∑ c ∈ T, w c * Real.log (w c) - Real.log (T.card : ℝ) := by
    rw [Finset.sum_sub_distrib, Finset.sum_neg_distrib, ← Finset.sum_mul, hsum,
      one_mul]
  have hR : ∑ c ∈ T, (1 / (T.card : ℝ) - w c) = 0 := by
    rw [Finset.sum_sub_distrib, Finset.sum_const, hsum, nsmul_eq_mul]
    field_simp
  rw [hL, hR] at hsum2
  linarith

/-- Gibbs' inequality in base 2. -/
theorem neg_sum_mul_logb_le (T : Finset Char) (w : Char → ℝ)
    (hw : ∀ c ∈ T, 0 < w c) (hsum : ∑ c ∈ T, w c = 1) :
    -∑ c ∈ T, w c * Real.logb 2 (w c) ≤ Real.logb 2 T.card := by
  have hlog2 : (0 : ℝ) < Real.log 2 := Real.log_pos one_lt_two
  have hterm : ∑ c ∈ T, w c * Real.logb 2 (w c) =
      (∑ c ∈ T, w c * Real.log (w c)) / Real.log 2 := by
    rw [Finset.sum_div]
    refine Finset.sum_congr rfl fun c _ => ?_
    rw [Real.logb]
    ring
  rw [hterm, Real.logb, ← neg_div, div_le_div_iff_of_pos_right hlog2]
  exact neg_sum_mul_log_le T w hw hsum

/-- C6 amended: for every password with a repeated character whose number of
distinct characters does not exceed its pool size, the empirical Shannon
entropy is at most the pool entropy.  (The repeated-character hypothesis of
the claim is kept; the distinct-characters bound is what the counterexample
forces — it holds automatically except when more than 32 distinct
non-alphanumeric characters are used, since each class contributes at least
as many pool points as it has characters.) -/
theorem C6_amended_shannon_le_pool (p : List Char)
    (hrep : ∃ c ∈ p, 1 < p.count c)
    (hcard : p.toFinset.card ≤ pool_size p) :
    calculate_character_entropy p ≤ calculate_entropy p := by
  obtain ⟨c0, hc0, _⟩ := hrep
  have hne : p ≠ [] := List.ne_nil_of_mem hc0
  have hL : 0 < p.length := List.length_pos.mpr hne
  have hLr : (0 : ℝ) < (p.length : ℝ) := by exact_mod_cast hL
  have hpool := pool_size_pos hne
  unfold calculate_character_entropy calculate_entropy
  rw [if_neg hne, if_neg hne, if_neg (Nat.pos_iff_ne_zero.mp hpool)]
  apply round2_mono
  have hwpos : ∀ c ∈ p.toFinset, (0 : ℝ) < (p.count c : ℝ) / (p.length : ℝ) := by
    intro c hc
    have hcnt : 0 < p.count c := List.count_pos_iff.mpr (List.mem_toFinset.mp hc)
    exact div_pos (by exact_mod_cast hcnt) hLr
  have hwsum : ∑ c ∈ p.toFinset, ((p.count c : ℝ) / (p.length : ℝ)) = 1 := by
    rw [← Finset.sum_div]
    have hs : ∑ c ∈ p.toFinset, ((p.count c : ℝ)) = (p.length : ℝ) := by
      exact_mod_cast list_sum_count p
    rw [hs]
    field_simp
  have hH := neg_sum_mul_logb_le p.toFinset
    (fun c => (p.count c : ℝ) / (p.length : ℝ)) hwpos hwsum
  have hcardpos : (0 : ℝ) < (p.toFinset.card : ℝ) := by
    have : p.toFinset.Nonempty := (List.toFinset_nonempty_iff p).mpr hne
    exact_mod_cast Finset.card_pos.mpr this
  have hmono : Real.logb 2 (p.toFinset.card : ℝ) ≤
      Real.logb 2 (pool_size p : ℝ) :=
    Real.logb_le_logb_of_le one_lt_two hcardpos (by exact_mod_cast hcard)
  calc (-(∑ c ∈ p.toFinset,
        ((p.count c : ℝ) / (p.length : ℝ)) *
          Real.logb 2 ((p.count c : ℝ) / (p.length : ℝ)))) * (p.length : ℝ)
      ≤ Real.logb 2 (pool_size p : ℝ) * (p.length : ℝ) :=
        mul_le_mul_of_nonneg_right (le_trans hH hmono) hLr.le
    _ = (p.length : ℝ) * Real.logb 2 (pool_size p : ℝ) := mul_comm _ _

/-- Witness for C6 amended at the concrete password `"aa"`. -/
theorem C6_amended_witness :
    calculate_character_entropy "aa".toList ≤ calculate_entropy "aa".toList :=
  C6_amended_shannon_le_pool "aa".toList ⟨'a', by decide, by decide⟩ (by decide)

/-- Thirty-three distinct non-alphanumeric characters: the 27 symbols of the
generator alphabet plus space, apostrophe, double quote, backslash, tilde
and tab. -/
def cexChars : List Char :=
  ['!', '@', '#', '$', '%', '^', '&', '*', '(', ')', '-', '_', '=', '+',
   '[', ']', '\x7b', '\x7d', '|', ';', ':', ',', '.', '<', '>', '?', '/',
   ' ', '\'', '"', '\\', '~', '\x09']

/-- A 66-character password using each of the 33 characters exactly twice. -/
def cexPassword : List Char := cexChars ++ cexChars

theorem cex_card : cexPassword.toFinset.card = 33 := by decide

theorem cex_count : ∀ c ∈ cexPassword.toFinset, cexPassword.count c = 2 := by
  decide

theorem cex_length : cexPassword.length = 66 := by decide

theorem cex_pool : pool_size cexPassword = 32 := by decide

/-- C6 counterexample: a password of 33 distinct non-alphanumeric characters
(each used twice, so repeated characters are present) has pool entropy
`round(66 * log2 32, 2) = 330` but empirical Shannon entropy
`round(66 * log2 33, 2) > 330`: the character-frequency entropy exceeds the
pool-based entropy, refuting `shannonEntropy ≤ poolEntropy`. -/
theorem C6_counterexample :
    (∃ c ∈ cexPassword, 1 < cexPassword.count c) ∧
    calculate_entropy cexPassword < calculate_character_entropy cexPassword := by
  constructor
  · exact ⟨'!', by decide, by decide⟩
  have hne : cexPassword ≠ [] := by decide
  have hpool : calculate_entropy cexPassword = 330 := by
    unfold calculate_entropy
    rw [if_neg hne, if_neg (by rw [cex_pool]; omega), cex_pool, cex_length]
    have h32 : ((32 : ℕ) : ℝ) = (2 : ℝ) ^ (5 : ℕ) := by norm_num
    rw [h32, Real.logb_pow, Real.logb_self_eq_one (by norm_num)]
    rw [show ((66 : ℕ) : ℝ) * ((5 : ℕ) * 1) = ((330 : ℤ) : ℝ) by norm_num]
    rw [round2_intCast]
    norm_num
  have hchar : calculate_character_entropy cexPassword =
      round2 (Real.logb 2 33 * 66) := by
    unfold calculate_character_entropy
    rw [if_neg hne]
    have hterm : ∀ c ∈ cexPassword.toFinset,
        ((cexPassword.count c : ℝ) / (cexPassword.length : ℝ)) *
          Real.logb 2 ((cexPassword.count c : ℝ) / (cexPassword.length : ℝ)) =
        (1 / 33) * Real.logb 2 (1 / 33) := by
      intro c hc
      rw [cex_count c hc, cex_length]
      norm_num
    rw [Finset.sum_congr rfl hterm, Finset.sum_const, cex_card, cex_length,
      nsmul_eq_mul]
    have h133 : Real.logb 2 ((1 : ℝ) / 33) = -Real.logb 2 33 := by
      rw [one_div, Real.logb_inv]
    rw [h133]
    norm_num
    ring_nf
  rw [hpool, hchar]
  have hlo : (501 : ℝ) / 100 < Real.logb 2 33 := by
    refine lt_logb_two (by norm_num) 501 100 (by norm_num) ?_
    have hnat : (2 : ℕ) ^ 501 < 33 ^ 100 := by norm_num
    exact_mod_cast hnat
  have hbound := round2_ge (Real.logb 2 33 * 66)
  nlinarith [hbound, hlo]

end PassPilot
